import Mathlib

/-!
Verification of the dependency graph engine of the depx repository.

The development shallowly embeds the Rust sources:
  - src/types.rs           (data model: Package, UsageAnalysis, ...)
  - src/graph/mod.rs       (DependencyGraph: analyze_usage,
                            get_transitive_dependencies, explain_package,
                            find_dependency_chains, is_expected_unused)
  - src/duplicates.rs      (calculate_severity, calculate_transitive_dependents)

Modelling conventions:
  - A Rust HashMap is embedded as an association list in one fixed iteration
    order; HashMap iteration order is unspecified in Rust, so every theorem
    proved here quantifies over all association lists (hence over all
    realizable iteration orders), and every counterexample exhibits one
    realizable order.
  - A petgraph node is identified with its package name (node construction in
    DependencyGraph::new is a bijection between names and node indices).
  - The Rust while-loops are embedded as fuel-indexed step functions; each
    top-level definition supplies a fuel that provably empties the work queue,
    so the embedded function computes exactly what the terminating Rust loop
    computes.  Loop states are kept first-class so that statements about the
    traversal itself (for instance, how often a node is enqueued) can be made.
  - Rust String comparison (String::cmp, byte-wise lexicographic on UTF-8) is
    embedded as code-point lexicographic comparison on the character list,
    which agrees with byte-wise UTF-8 order.
-/

namespace Depx

/-! ## Definitions -/

/-- Code-point lexicographic comparison on character lists: `lexLeChars a b`
is true iff `a` is less than or equal to `b`.  This is the order Rust's
`String::cmp` induces (byte-wise UTF-8 order equals code-point order). -/
def lexLeChars : List Char → List Char → Bool
  | [], _ => true
  | _ :: _, [] => false
  | a :: as, b :: bs =>
    if a.val.toNat < b.val.toNat then true
    else if b.val.toNat < a.val.toNat then false
    else lexLeChars as bs

/-- String comparison used by the sorting calls (`a.name.cmp(&b.name)`). -/
def nameLe (a b : String) : Bool := lexLeChars a.data b.data

/-- Embedding of Rust's `str::starts_with` on string prefixes. -/
def strStartsWith (s p : String) : Bool := p.data.isPrefixOf s.data

/-- Package record, from src/types.rs. -/
structure Package where
  name : String
  version : String
  is_direct : Bool
  is_dev : Bool
  dependencies : List String
  deprecated : Option String
deriving DecidableEq, Repr

/-- One entry of the `used` bucket, from src/types.rs (`PackageUsage`).
`files` is always left empty by analyze_usage. -/
structure PackageUsage where
  package : Package
  import_count : Nat
  files : List String
deriving DecidableEq, Repr

/-- Result of analyze_usage, from src/types.rs (`UsageAnalysis`). -/
structure UsageAnalysis where
  used : List PackageUsage
  unused : List Package
  expected_unused : List Package
  dev_only : List Package
  unused_direct : List Package
  expected_unused_direct : List Package
deriving DecidableEq, Repr

/-- Result of explain_package, from src/types.rs (`PackageExplanation`). -/
structure PackageExplanation where
  package : Package
  dependency_chains : List (List String)
  is_dev_path : Bool
deriving DecidableEq, Repr

/-- The dependency graph, from src/graph/mod.rs (`DependencyGraph`).  The
petgraph graph and the `node_indices` map of the Rust struct are fully
determined by the package map, so the embedding carries only the package map
(as an association list fixing one HashMap iteration order) and derives nodes
and edges from it exactly as `DependencyGraph::new` does. -/
structure DependencyGraph where
  packages : List (String × Package)
deriving DecidableEq, Repr

/-- The node names of the graph: one node per key of the package map. -/
def gnodes (g : DependencyGraph) : List String := g.packages.map (fun ap => ap.1)

/-- Membership test against the node set (`node_indices.get(name).is_some()`). -/
def isNode (g : DependencyGraph) (name : String) : Bool := (gnodes g).contains name

/-- Lookup in the package map (`self.packages.get(name)`). -/
def lookupPkg (g : DependencyGraph) (name : String) : Option Package :=
  (g.packages.find? (fun ap => ap.1 == name)).map (fun ap => ap.2)

/-- Outgoing neighbors of node `a`: one per dependency entry of the package
named `a` that resolves to an existing node.  In `DependencyGraph::new` an
edge dependant → dependency is added only when `node_indices` resolves the
dependency name. -/
def outNbrs (g : DependencyGraph) (a : String) : List String :=
  g.packages.flatMap (fun ap =>
    if ap.1 == a then ap.2.dependencies.filter (fun d => isNode g d) else [])

/-- Incoming neighbors of node `b`: one per occurrence of `b` in the
dependency list of any package (the reverse direction of the same edge set). -/
def incNbrs (g : DependencyGraph) (b : String) : List String :=
  if isNode g b then
    g.packages.flatMap (fun ap =>
      (ap.2.dependencies.filter (fun d => d == b)).map (fun _ => ap.1))
  else []

/-- The edge relation of the graph: `a` depends on `b` and both are nodes. -/
def hasEdge (g : DependencyGraph) (a b : String) : Prop :=
  ∃ pkg, (a, pkg) ∈ g.packages ∧ b ∈ pkg.dependencies ∧ isNode g b = true

/-- Total number of edges (dependency entries that resolve to a node). -/
def edgeCount (g : DependencyGraph) : Nat :=
  (g.packages.map (fun ap => (ap.2.dependencies.filter (fun d => isNode g d)).length)).sum

/-- The distinct node names. -/
def dnodes (g : DependencyGraph) : List String := (gnodes g).dedup

/-- One iteration of the while-loop of `get_transitive_dependencies`
(src/graph/mod.rs lines 122-133): pop the front of the queue; if the popped
node is already visited, do nothing more; otherwise insert it into the
visited set and enqueue all its outgoing neighbors.  The state is
(queue, visited). -/
def closureStep (g : DependencyGraph) : List String × List String → List String × List String
  | ([], visited) => ([], visited)
  | (n :: rest, visited) =>
    if visited.contains n then (rest, visited)
    else (rest ++ outNbrs g n, visited ++ [n])

/-- The while-loop of `get_transitive_dependencies`, driven by fuel; the loop
exits when the queue is empty. -/
def closureLoop (g : DependencyGraph) : Nat → List String × List String → List String × List String
  | 0, st => st
  | fuel + 1, st =>
    match st with
    | ([], visited) => ([], visited)
    | (n :: rest, visited) => closureLoop g fuel (closureStep g (n :: rest, visited))

/-- The initial queue: every root that resolves to a node is enqueued
(src/graph/mod.rs lines 116-120). -/
def initQueue (g : DependencyGraph) (roots : List String) : List String :=
  roots.filter (fun r => isNode g r)

/-- Fuel that provably outlasts the loop (the loop terminates because every
visited-set insertion is permanent and the node set is finite). -/
def closureFuel (g : DependencyGraph) (roots : List String) : Nat :=
  roots.length + (edgeCount g + 1) * (dnodes g).length

/-- Embedding of `get_transitive_dependencies` (src/graph/mod.rs lines
111-136): BFS from the roots following outgoing edges, returning the visited
set (as the list of names in insertion order). -/
def get_transitive_dependencies (g : DependencyGraph) (roots : List String) : List String :=
  (closureLoop g (closureFuel g roots) (initQueue g roots, [])).2

/-- Forward reachability from a root set: the set `get_transitive_dependencies`
is proved to compute.  A root participates only if it is a node. -/
inductive Reach (g : DependencyGraph) (roots : List String) : String → Prop
  | root (r : String) : r ∈ roots → isNode g r = true → Reach g roots r
  | step (a b : String) : Reach g roots a → hasEdge g a b → Reach g roots b

/-- The loop invariant of `get_transitive_dependencies`: every queued and
every visited name is a node reachable from the roots; the visited list is
duplicate-free; every outgoing neighbor of a visited node is visited or
queued; every root that is a node is visited or queued. -/
def closureInv (g : DependencyGraph) (roots : List String)
    (st : List String × List String) : Prop :=
  (∀ x ∈ st.1, isNode g x = true ∧ Reach g roots x) ∧
  st.2.Nodup ∧
  (∀ x ∈ st.2, isNode g x = true ∧ Reach g roots x) ∧
  (∀ v ∈ st.2, ∀ w ∈ outNbrs g v, w ∈ st.2 ∨ w ∈ st.1) ∧
  (∀ r ∈ roots, isNode g r = true → r ∈ st.2 ∨ r ∈ st.1)

/-- Termination measure of the closure loop. -/
def closureMeasure (g : DependencyGraph) (st : List String × List String) : Nat :=
  st.1.length + (edgeCount g + 1) * ((dnodes g).length - st.2.length)

/-- The exact-name allowlist of `is_expected_unused`
(src/graph/mod.rs, `EXPECTED_UNUSED_EXACT`). -/
def EXPECTED_UNUSED_EXACT : List String :=
  ["typescript", "ts-node", "tsx", "ts-jest",
   "vite", "webpack", "webpack-cli", "webpack-dev-server", "rollup", "esbuild",
   "parcel", "turbo", "nx", "tsup", "unbuild", "pkgroll", "microbundle", "tsdx",
   "preconstruct", "bunchee",
   "eslint", "prettier", "stylelint", "biome", "oxlint", "dprint", "xo", "standard",
   "jest", "vitest", "mocha", "ava", "tap", "c8", "nyc", "playwright", "cypress",
   "@playwright/test", "uvu",
   "nodemon", "ts-node-dev", "tsnd", "concurrently", "npm-run-all", "npm-run-all2",
   "cross-env", "wait-on",
   "rimraf", "del-cli", "copyfiles", "cpy-cli", "mkdirp", "shx",
   "husky", "lint-staged", "commitlint", "simple-git-hooks", "lefthook",
   "semantic-release", "release-it", "standard-version", "bumpp", "changelogithub",
   "changelogen", "np", "lerna", "changeset",
   "patch-package", "pnpm-patch",
   "typedoc", "jsdoc", "documentation", "api-extractor",
   "tsc", "attw", "publint", "arethetypeswrong", "knip", "depcheck"]

/-- The package-name-beginning allowlist of `is_expected_unused`
(src/graph/mod.rs, `EXPECTED_UNUSED_PREFIXES`). -/
def EXPECTED_UNUSED_STARTS : List String :=
  ["@typescript-eslint/", "@eslint/", "eslint-plugin-", "eslint-config-",
   "@vitejs/", "@rollup/", "@babel/", "babel-", "@swc/", "@jest/",
   "@testing-library/", "@vitest/", "prettier-plugin-"]

/-- Embedding of `is_expected_unused` (src/graph/mod.rs lines 233-361). -/
def is_expected_unused (name : String) : Bool :=
  strStartsWith name "@types/" ||
  EXPECTED_UNUSED_EXACT.contains name ||
  EXPECTED_UNUSED_STARTS.any (fun p => strStartsWith name p)

/-- One classification step of the loop of `analyze_usage`
(src/graph/mod.rs lines 62-91), pushing the package to the buckets the Rust
loop pushes it to. -/
def usageStep (used_packages transitively_used : List String) (include_dev : Bool)
    (acc : UsageAnalysis) (ap : String × Package) : UsageAnalysis :=
  let name := ap.1
  let pkg := ap.2
  if !include_dev && pkg.is_dev then acc
  else if used_packages.contains name || transitively_used.contains name then
    ⟨acc.used ++ [⟨pkg, if used_packages.contains name then 1 else 0, []⟩],
     acc.unused, acc.expected_unused, acc.dev_only, acc.unused_direct,
     acc.expected_unused_direct⟩
  else if is_expected_unused name then
    ⟨acc.used, acc.unused, acc.expected_unused ++ [pkg], acc.dev_only, acc.unused_direct,
     if pkg.is_direct then acc.expected_unused_direct ++ [pkg]
     else acc.expected_unused_direct⟩
  else if pkg.is_dev && !pkg.is_direct then
    ⟨acc.used, acc.unused, acc.expected_unused, acc.dev_only ++ [pkg],
     acc.unused_direct, acc.expected_unused_direct⟩
  else
    ⟨acc.used, acc.unused ++ [pkg], acc.expected_unused, acc.dev_only,
     if pkg.is_direct then acc.unused_direct ++ [pkg] else acc.unused_direct,
     acc.expected_unused_direct⟩

/-- Embedding of `analyze_usage` (src/graph/mod.rs lines 51-108): classify
every package into the six buckets, then sort five of them by package name
(the Rust code sorts `unused`, `unused_direct`, `expected_unused`,
`expected_unused_direct` and `used`; it does not sort `dev_only`). -/
def analyze_usage (g : DependencyGraph) (used_packages : List String)
    (include_dev : Bool) : UsageAnalysis :=
  let transitively_used := get_transitive_dependencies g used_packages
  let a := g.packages.foldl (usageStep used_packages transitively_used include_dev)
    ⟨[], [], [], [], [], []⟩
  ⟨a.used.mergeSort (fun x y => nameLe x.package.name y.package.name),
   a.unused.mergeSort (fun x y => nameLe x.name y.name),
   a.expected_unused.mergeSort (fun x y => nameLe x.name y.name),
   a.dev_only,
   a.unused_direct.mergeSort (fun x y => nameLe x.name y.name),
   a.expected_unused_direct.mergeSort (fun x y => nameLe x.name y.name)⟩

/-- `self.packages.get(name).map_or(false, |p| p.is_direct)`. -/
def isDirectName (g : DependencyGraph) (n : String) : Bool :=
  match lookupPkg g n with
  | some p => p.is_direct
  | none => false

/-- `self.packages.get(name).map_or(false, |p| p.is_dev)`. -/
def isDevName (g : DependencyGraph) (n : String) : Bool :=
  match lookupPkg g n with
  | some p => p.is_dev
  | none => false

/-- State of the reverse BFS of `find_dependency_chains`: the queue of
(current node, partial path) pairs, the seen-paths set and the chains found
so far (src/graph/mod.rs lines 161-208).  Partial paths run from the current
node down to the target. -/
structure ChainSt where
  queue : List (String × List String)
  visitedPaths : List (List String)
  chains : List (List String)
deriving DecidableEq, Repr

/-- Processing of one incoming neighbor inside the loop body
(src/graph/mod.rs lines 179-200): skip it if it already lies on the path;
otherwise extend the path; a direct neighbor finalizes the chain (deduplicated
through the seen-paths set), any other neighbor is enqueued. -/
def chainPush (g : DependencyGraph) (path : List String) (st : ChainSt) (nb : String) :
    ChainSt :=
  if path.contains nb then st
  else
    let newPath := nb :: path
    if isDirectName g nb then
      if st.visitedPaths.contains newPath then st
      else ⟨st.queue, st.visitedPaths ++ [newPath], st.chains ++ [newPath]⟩
    else ⟨st.queue ++ [(nb, newPath)], st.visitedPaths, st.chains⟩

/-- The body of the while-loop of `find_dependency_chains` for one dequeued
(current, path) pair: fold `chainPush` over the incoming neighbors of the
current node, in order. -/
def chainsStep (g : DependencyGraph) (cur : String) (path : List String) (st : ChainSt) :
    ChainSt :=
  (incNbrs g cur).foldl (chainPush g path) st

/-- The while-loop of `find_dependency_chains`, driven by fuel; the loop exits
when the queue is empty. -/
def chainsLoop (g : DependencyGraph) : Nat → ChainSt → ChainSt
  | 0, st => st
  | fuel + 1, st =>
    match st.queue with
    | [] => st
    | (cur, path) :: rest => chainsLoop g fuel (chainsStep g cur path ⟨rest, st.visitedPaths, st.chains⟩)

/-- Fuel that provably outlasts the reverse BFS: paths are duplicate-free
lists of node names, so the depth of the search tree is bounded by the node
count and its fan-out by the edge count. -/
def chainsFuel (g : DependencyGraph) : Nat := (edgeCount g + 1) ^ (dnodes g).length

/-- The initial state: the target with the single-element path `[target]`. -/
def chainsInit (target : String) : ChainSt := ⟨[(target, [target])], [], []⟩

/-- `chains.sort_by_key(|c| c.len())` — Rust's stable sort by chain length. -/
def sortByLen (chains : List (List String)) : List (List String) :=
  chains.mergeSort (fun a b => a.length ≤ b.length)

/-- Embedding of `find_dependency_chains` (src/graph/mod.rs lines 161-208):
a direct target explains itself with the single chain `[target]`; otherwise a
reverse BFS collects chains from direct dependencies to the target, which are
sorted by length and truncated to the 5 shortest. -/
def find_dependency_chains (g : DependencyGraph) (target : String) : List (List String) :=
  if isDirectName g target then [[target]]
  else
    let stF := chainsLoop g (chainsFuel g) (chainsInit target)
    (sortByLen stF.chains).take 5

/-- Embedding of `explain_package` (src/graph/mod.rs lines 139-158): `none`
exactly when the name misses from the package map; otherwise the chains are
computed and `is_dev_path` says whether any chain starts at a dev dependency. -/
def explain_package (g : DependencyGraph) (package_name : String) :
    Option PackageExplanation :=
  match lookupPkg g package_name with
  | none => none
  | some pkg =>
    if isNode g package_name then
      let chains := find_dependency_chains g package_name
      some ⟨pkg, chains,
        chains.any (fun chain =>
          match chain.head? with
          | some root => isDevName g root
          | none => false)⟩
    else none

/-- A well-formed partial path of the reverse BFS: nonempty, duplicate-free,
entirely inside the node set, ending at the target, and following edges of
the graph from its head down to the target. -/
def pathOk (g : DependencyGraph) (target : String) (p : List String) : Prop :=
  p ≠ [] ∧ p.Nodup ∧ (∀ x ∈ p, isNode g x = true) ∧ p.getLast? = some target ∧
  List.Chain' (hasEdge g) p

/-- A well-formed queue entry: the stored node is the head of its path. -/
def entryOk (g : DependencyGraph) (target : String) (e : String × List String) : Prop :=
  e.2.head? = some e.1 ∧ pathOk g target e.2

/-- A finalized chain: a well-formed path whose head is a direct dependency. -/
def chainOk (g : DependencyGraph) (target : String) (c : List String) : Prop :=
  pathOk g target c ∧ ∃ h t, c = h :: t ∧ isDirectName g h = true

/-- The loop invariant of the reverse BFS. -/
def stOk (g : DependencyGraph) (target : String) (st : ChainSt) : Prop :=
  (∀ e ∈ st.queue, entryOk g target e) ∧ (∀ c ∈ st.chains, chainOk g target c)

/-- Weight of a queue entry for the termination measure: entries with longer
paths weigh exponentially less. -/
def chainWeight (g : DependencyGraph) (e : String × List String) : Nat :=
  (edgeCount g + 1) ^ ((dnodes g).length + 1 - e.2.length)

/-- Termination measure of the reverse BFS: total weight of the queue. -/
def chainMeasure (g : DependencyGraph) (st : ChainSt) : Nat :=
  (st.queue.map (chainWeight g)).sum

/-- Severity of a duplicate group, from src/types.rs (`DuplicateSeverity`). -/
inductive DuplicateSeverity where
  | Low
  | Medium
  | High
deriving DecidableEq, Repr

/-- One version of a duplicated package, from src/types.rs (`DuplicateVersion`). -/
structure DuplicateVersion where
  version : String
  dependents : List String
  transitive_count : Nat
deriving DecidableEq, Repr

/-- Package info for duplicate analysis, from src/lockfile/cargo.rs
(`CargoPackageInfo`). -/
structure CargoPackageInfo where
  version : String
  dependents : List String
  is_path_dep : Bool
deriving DecidableEq, Repr

/-- Decimal digit test on a character, by code point. -/
def isDigitChar (c : Char) : Bool := 48 ≤ c.val.toNat && c.val.toNat ≤ 57

/-- Character legal inside a semver prerelease or build identifier:
ASCII alphanumeric or hyphen. -/
def isAlnumHyphen (c : Char) : Bool :=
  isDigitChar c || (65 ≤ c.val.toNat && c.val.toNat ≤ 90) ||
  (97 ≤ c.val.toNat && c.val.toNat ≤ 122) || c.val.toNat == 45

/-- A numeric identifier of semver: nonempty digits with no leading zero. -/
def isNumericIdent (s : List Char) : Bool :=
  !s.isEmpty && s.all isDigitChar && (s == ['0'] || s.head? != some '0')

/-- A prerelease identifier of semver: nonempty, alphanumeric-or-hyphen, and
when purely numeric, free of leading zeros. -/
def isPreIdent (s : List Char) : Bool :=
  !s.isEmpty && s.all isAlnumHyphen && (!s.all isDigitChar || isNumericIdent s)

/-- A build identifier of semver: nonempty, alphanumeric-or-hyphen. -/
def isBuildIdent (s : List Char) : Bool := !s.isEmpty && s.all isAlnumHyphen

/-- Split a character list at every occurrence of the separator. -/
def splitOnChar (sep : Char) : List Char → List (List Char)
  | [] => [[]]
  | c :: cs =>
    let r := splitOnChar sep cs
    if c = sep then [] :: r
    else
      match r with
      | [] => [[c]]
      | h :: t => (c :: h) :: t

/-- Digits to their decimal value. -/
def charsToNat (s : List Char) : Nat :=
  s.foldl (fun n c => n * 10 + (c.val.toNat - 48)) 0

/-- Modelled from the semver crate (an external dependency, no code of it is
under src/): `semver::Version::parse` accepts `MAJOR.MINOR.PATCH` with an
optional `-PRERELEASE` and `+BUILD` suffix, where the three core components
are numeric identifiers without leading zeros, prerelease identifiers are
dot-separated alphanumeric-or-hyphen identifiers (purely numeric ones without
leading zeros) and build identifiers are dot-separated
alphanumeric-or-hyphen identifiers.  Returns the major component on success
(numeric u64 overflow is not modelled). -/
def semverMajor (s : String) : Option Nat :=
  let cs := s.data
  let core := cs.takeWhile (fun c => !(c == '-') && !(c == '+'))
  let rest := cs.drop core.length
  let tailOk : Bool :=
    match rest with
    | [] => true
    | '-' :: more =>
      let pre := more.takeWhile (fun c => !(c == '+'))
      let rest2 := more.drop pre.length
      ((splitOnChar '.' pre).all isPreIdent) &&
        (match rest2 with
         | [] => true
         | _ :: b => (splitOnChar '.' b).all isBuildIdent)
    | '+' :: b => (splitOnChar '.' b).all isBuildIdent
    | _ :: _ => false
  match splitOnChar '.' core with
  | [maj, minr, pat] =>
    if isNumericIdent maj && isNumericIdent minr && isNumericIdent pat && tailOk then
      some (charsToNat maj)
    else none
  | _ => none

/-- Embedding of `calculate_severity` (src/duplicates.rs lines 172-198). -/
def calculate_severity (versions : List DuplicateVersion) : DuplicateSeverity :=
  if 3 ≤ versions.length then DuplicateSeverity.High
  else
    let major_versions := versions.filterMap (fun v => semverMajor v.version)
    match major_versions with
    | [] => DuplicateSeverity.Low
    | first :: rest =>
      if rest.all (fun m => m == first) then DuplicateSeverity.Low
      else DuplicateSeverity.Medium

/-- The version-qualified reverse map of `calculate_transitive_dependents`
(src/duplicates.rs lines 127-134): key `name@version` to the dependents list.
HashMap::insert replaces, so the latest insertion is the visible binding; the
embedding prepends and looks up the first match. -/
def buildReverseGraph (packages_by_name : List (String × List CargoPackageInfo)) :
    List (String × List String) :=
  packages_by_name.foldl (fun acc nv =>
    nv.2.foldl (fun acc v => (nv.1 ++ "@" ++ v.version, v.dependents) :: acc) acc) []

/-- Lookup in the reverse map. -/
def rgDeps (rg : List (String × List String)) (k : String) : List String :=
  match rg.find? (fun e => e.1 == k) with
  | some e => e.2
  | none => []

/-- `if visited.insert(dep) { queue.push_back(dep) }` folded over a dependents
list: the state is (visited, queue). -/
def pushFresh (deps : List String) (vq : List String × List String) :
    List String × List String :=
  deps.foldl (fun vq d => if vq.1.contains d then vq else (vq.1 ++ [d], vq.2 ++ [d])) vq

/-- The while-loop of `calculate_transitive_dependents`
(src/duplicates.rs lines 149-158), driven by fuel: pop, count, push the fresh
dependents of the popped key.  The state is (visited, queue, count). -/
def ctdLoop (rg : List (String × List String)) :
    Nat → List String × List String × Nat → List String × List String × Nat
  | 0, st => st
  | fuel + 1, st =>
    match st with
    | (vis, [], cnt) => (vis, [], cnt)
    | (vis, c :: rest, cnt) =>
      let vq := pushFresh (rgDeps rg c) (vis, rest)
      ctdLoop rg fuel (vq.1, vq.2, cnt + 1)

/-- All dependent identifiers occurring in the reverse map (the universe the
visited set lives in). -/
def rgUniverse (rg : List (String × List String)) : List String :=
  (rg.flatMap (fun e => e.2)).dedup

/-- Fuel that provably outlasts the loop: every enqueue is gated by a fresh
visited-set insertion and the visited set lives in `rgUniverse`. -/
def ctdFuel (rg : List (String × List String)) : Nat := 3 * (rgUniverse rg).length + 3

/-- Embedding of `calculate_transitive_dependents` (src/duplicates.rs lines
119-161): seed the queue with the immediate dependents of the package key,
then BFS over the version-qualified reverse map, counting each dequeued
dependent; the visited-set check precedes every enqueue. -/
def calculate_transitive_dependents (package_key : String)
    (packages_by_name : List (String × List CargoPackageInfo)) : Nat :=
  let rg := buildReverseGraph packages_by_name
  let seeds := pushFresh (rgDeps rg package_key) ([], [])
  (ctdLoop rg (ctdFuel rg) (seeds.1, seeds.2, 0)).2.2

/-- Transitive dependency on the package key through the reverse map: the set
of dependents `calculate_transitive_dependents` is proved to count. -/
inductive TransDep (rg : List (String × List String)) (key : String) : String → Prop
  | seed (d : String) : d ∈ rgDeps rg key → TransDep rg key d
  | step (c d : String) : TransDep rg key c → d ∈ rgDeps rg c → TransDep rg key d

/-- The loop invariant of the counting BFS: the visited list is
duplicate-free and inside the universe of dependent identifiers, the queue is
duplicate-free and inside the visited list, the count plus the queue length
equals the visited length, every visited identifier is a transitive
dependent, every visited identifier is still queued or has all its dependents
visited, and the seeds are visited. -/
def ctdInv (rg : List (String × List String)) (key : String)
    (st : List String × List String × Nat) : Prop :=
  st.1.Nodup ∧ st.2.1.Nodup ∧ (∀ x ∈ st.2.1, x ∈ st.1) ∧
  st.2.2 + st.2.1.length = st.1.length ∧
  (∀ x ∈ st.1, TransDep rg key x) ∧
  (∀ v ∈ st.1, v ∈ st.2.1 ∨ (∀ d ∈ rgDeps rg v, d ∈ st.1)) ∧
  (∀ d ∈ rgDeps rg key, d ∈ st.1) ∧
  (∀ x ∈ st.1, x ∈ rgUniverse rg)

/-- Measure of the counting BFS. -/
def ctdMeasure (rg : List (String × List String)) (st : List String × List String × Nat) :
    Nat :=
  st.2.1.length + 2 * ((rgUniverse rg).length - st.1.length)

/-- Two dev-only packages whose map-iteration order is descending by name. -/
def gC1 : DependencyGraph := ⟨[
  ("b", ⟨"b", "1.0.0", false, true, [], none⟩),
  ("a", ⟨"a", "1.0.0", false, true, [], none⟩)]⟩

/-- A diamond: r depends on a and b, both of which depend on c. -/
def gC2 : DependencyGraph := ⟨[
  ("r", ⟨"r", "1.0.0", true, false, ["a", "b"], none⟩),
  ("a", ⟨"a", "1.0.0", false, false, ["c"], none⟩),
  ("b", ⟨"b", "1.0.0", false, false, ["c"], none⟩),
  ("c", ⟨"c", "1.0.0", false, false, [], none⟩)]⟩

/-- A single direct dependency. -/
def gC4 : DependencyGraph := ⟨[("e", ⟨"e", "1.0.0", true, false, [], none⟩)]⟩

/-- A two-cycle: a depends on b and b depends on a; neither is direct. -/
def gC6 : DependencyGraph := ⟨[
  ("a", ⟨"a", "1.0.0", false, false, ["b"], none⟩),
  ("b", ⟨"b", "1.0.0", false, false, ["a"], none⟩)]⟩

/-- A single non-direct package reachable from no direct dependency. -/
def gC10 : DependencyGraph := ⟨[("a", ⟨"a", "1.0.0", false, false, [], none⟩)]⟩

/-- The duplicate-analysis example graph of the spec and of the repository's
own test: root → A@1.0.0 → B@1.0.0 → C@1.0.0 and root → D@1.0.0 → B@1.0.0. -/
def examplePbn : List (String × List CargoPackageInfo) :=
  [("A", [⟨"1.0.0", ["root"], false⟩]),
   ("B", [⟨"1.0.0", ["A@1.0.0", "D@1.0.0"], false⟩]),
   ("C", [⟨"1.0.0", ["B@1.0.0"], false⟩]),
   ("D", [⟨"1.0.0", ["root"], false⟩])]

/-- The chains an optional explanation carries (none carries no chains). -/
def explainChains (o : Option PackageExplanation) : List (List String) :=
  match o with
  | none => []
  | some e => e.dependency_chains

/-! ## Theorems -/

theorem contains_iff_mem {l : List String} {a : String} : l.contains a = true ↔ a ∈ l := by
  simp [List.contains]

theorem isNode_iff_mem {g : DependencyGraph} {n : String} :
    isNode g n = true ↔ n ∈ gnodes g := contains_iff_mem

theorem mem_outNbrs {g : DependencyGraph} {a b : String} :
    b ∈ outNbrs g a ↔ hasEdge g a b := by
  simp only [outNbrs, List.mem_flatMap, hasEdge]
  constructor
  · rintro ⟨ap, hap, hb⟩
    by_cases h : ap.1 == a
    · simp only [h, if_pos, List.mem_filter] at hb
      have h1 : ap.1 = a := by simpa using h
      refine ⟨ap.2, ?_, hb.1, hb.2⟩
      rw [← h1]
      exact hap
    · simp [h] at hb
  · rintro ⟨pkg, hmem, hdep, hnode⟩
    exact ⟨(a, pkg), hmem, by simp [hdep, hnode]⟩

theorem mem_incNbrs {g : DependencyGraph} {a b : String} :
    a ∈ incNbrs g b ↔ hasEdge g a b := by
  by_cases hb : isNode g b = true
  · rw [incNbrs, if_pos hb]
    simp only [List.mem_flatMap, List.mem_map, List.mem_filter, hasEdge]
    constructor
    · rintro ⟨ap, hap, d, ⟨hd, hdb⟩, rfl⟩
      have hdb1 : d = b := by simpa using hdb
      rw [hdb1] at hd
      exact ⟨ap.2, by simpa using hap, hd, hb⟩
    · rintro ⟨pkg, hmem, hdep, -⟩
      exact ⟨(a, pkg), hmem, b, ⟨hdep, by simp⟩, rfl⟩
  · rw [incNbrs, if_neg hb]
    simp only [List.not_mem_nil, false_iff]
    rintro ⟨pkg, -, -, hnode⟩
    exact hb hnode

theorem hasEdge_src_isNode {g : DependencyGraph} {a b : String} (h : hasEdge g a b) :
    isNode g a = true := by
  obtain ⟨pkg, hmem, -, -⟩ := h
  rw [isNode_iff_mem, gnodes]
  exact List.mem_map.mpr ⟨(a, pkg), hmem, rfl⟩

theorem hasEdge_tgt_isNode {g : DependencyGraph} {a b : String} (h : hasEdge g a b) :
    isNode g b = true := by
  obtain ⟨pkg, -, -, hn⟩ := h
  exact hn

theorem lookupPkg_isNode {g : DependencyGraph} {n : String} {p : Package}
    (h : lookupPkg g n = some p) : isNode g n = true := by
  simp only [lookupPkg, Option.map_eq_some'] at h
  obtain ⟨ap, hfind, -⟩ := h
  have h1 : ap.1 = n := by simpa using List.find?_some hfind
  have h2 : ap ∈ g.packages := List.mem_of_find?_eq_some hfind
  rw [isNode_iff_mem, gnodes]
  exact List.mem_map.mpr ⟨ap, h2, h1⟩

theorem isNode_lookupPkg {g : DependencyGraph} {n : String} (h : isNode g n = true) :
    ∃ p, lookupPkg g n = some p := by
  rw [isNode_iff_mem, gnodes, List.mem_map] at h
  obtain ⟨ap, hap, h1⟩ := h
  have : (g.packages.find? (fun ap => ap.1 == n)).isSome := by
    rw [List.find?_isSome]
    exact ⟨ap, hap, by simp [h1]⟩
  obtain ⟨bp, hbp⟩ := Option.isSome_iff_exists.mp this
  exact ⟨bp.2, by simp [lookupPkg, hbp]⟩

theorem length_filter_mono {α : Type} {p q : α → Bool} (h : ∀ x, p x = true → q x = true) :
    ∀ l : List α, (l.filter p).length ≤ (l.filter q).length := by
  intro l
  induction l with
  | nil => simp
  | cons x xs ih =>
    by_cases hp : p x
    · simp [List.filter_cons, hp, h x hp]
      omega
    · simp only [List.filter_cons]
      by_cases hq : q x <;> simp [hp, hq] <;> omega

theorem outNbrs_length_le {g : DependencyGraph} (a : String) :
    (outNbrs g a).length ≤ edgeCount g := by
  rw [outNbrs, edgeCount, List.length_flatMap]
  apply List.sum_le_sum
  intro ap _
  simp only [Function.comp]
  split <;> simp

theorem incNbrs_length_le {g : DependencyGraph} (b : String) :
    (incNbrs g b).length ≤ edgeCount g := by
  rw [incNbrs, edgeCount]
  by_cases hb : isNode g b
  · simp only [hb, if_pos, List.length_flatMap]
    apply List.sum_le_sum
    intro ap _
    simp only [Function.comp]
    rw [List.length_map]
    apply length_filter_mono
    intro d hd
    have : d = b := by simpa using hd
    subst this
    exact hb
  · simp [hb]

theorem nodup_subset_length_le {l L : List String} (hnd : l.Nodup) (hsub : ∀ x ∈ l, x ∈ L) :
    l.length ≤ L.length :=
  (hnd.subperm hsub).length_le

theorem closureStep_inv {g : DependencyGraph} {roots : List String}
    {st : List String × List String} (h : closureInv g roots st) :
    closureInv g roots (closureStep g st) := by
  obtain ⟨q, vis⟩ := st
  obtain ⟨hq, hnd, hvis, hclosed, hroots⟩ := h
  cases q with
  | nil => exact ⟨hq, hnd, hvis, hclosed, hroots⟩
  | cons n rest =>
    by_cases hn : vis.contains n
    · have hnv : n ∈ vis := contains_iff_mem.mp hn
      simp only [closureStep, hn, if_pos]
      refine ⟨fun x hx => hq x (List.mem_cons_of_mem _ hx), hnd, hvis, ?_, ?_⟩
      · intro v hv w hw
        rcases hclosed v hv w hw with h1 | h1
        · exact Or.inl h1
        · rcases List.mem_cons.mp h1 with h2 | h2
          · exact Or.inl (h2 ▸ hnv)
          · exact Or.inr h2
      · intro r hr hrn
        rcases hroots r hr hrn with h1 | h1
        · exact Or.inl h1
        · rcases List.mem_cons.mp h1 with h2 | h2
          · exact Or.inl (h2 ▸ hnv)
          · exact Or.inr h2
    · have hnv : n ∉ vis := fun hc => hn (contains_iff_mem.mpr hc)
      have hhead := hq n (List.mem_cons_self n rest)
      simp only [closureStep, hn, if_neg, Bool.false_eq_true, not_false_iff]
      refine ⟨?_, ?_, ?_, ?_, ?_⟩
      · intro x hx
        rcases List.mem_append.mp hx with h1 | h1
        · exact hq x (List.mem_cons_of_mem _ h1)
        · have hedge : hasEdge g n x := mem_outNbrs.mp h1
          exact ⟨hasEdge_tgt_isNode hedge, Reach.step n x hhead.2 hedge⟩
      · simp [List.nodup_append, hnd, hnv]
      · intro x hx
        rcases List.mem_append.mp hx with h1 | h1
        · exact hvis x h1
        · simp only [List.mem_singleton] at h1
          exact h1 ▸ hhead
      · intro v hv w hw
        rcases List.mem_append.mp hv with h1 | h1
        · rcases hclosed v h1 w hw with h2 | h2
          · exact Or.inl (List.mem_append.mpr (Or.inl h2))
          · rcases List.mem_cons.mp h2 with h3 | h3
            · exact Or.inl (List.mem_append.mpr (Or.inr (by simp [h3])))
            · exact Or.inr (List.mem_append.mpr (Or.inl h3))
        · simp only [List.mem_singleton] at h1
          subst h1
          exact Or.inr (List.mem_append.mpr (Or.inr hw))
      · intro r hr hrn
        rcases hroots r hr hrn with h1 | h1
        · exact Or.inl (List.mem_append.mpr (Or.inl h1))
        · rcases List.mem_cons.mp h1 with h2 | h2
          · exact Or.inl (List.mem_append.mpr (Or.inr (by simp [h2])))
          · exact Or.inr (List.mem_append.mpr (Or.inl h2))

theorem measure_arith {e K v q d : Nat} (hd : d ≤ e) (hv : v + 1 ≤ K) :
    q + d + (e + 1) * (K - (v + 1)) < q + 1 + (e + 1) * (K - v) := by
  have hrw : K - v = (K - (v + 1)) + 1 := by omega
  rw [hrw, Nat.mul_add, Nat.mul_one]
  generalize (e + 1) * (K - (v + 1)) = t
  omega

theorem closureStep_measure {g : DependencyGraph} {roots : List String}
    {st : List String × List String} (h : closureInv g roots st) (hne : st.1 ≠ []) :
    closureMeasure g (closureStep g st) < closureMeasure g st := by
  obtain ⟨q, vis⟩ := st
  cases q with
  | nil => exact absurd rfl hne
  | cons n rest =>
    obtain ⟨hq, hnd, hvis, -, -⟩ := h
    by_cases hn : vis.contains n
    · simp only [closureStep, hn, if_pos, closureMeasure, List.length_cons]
      omega
    · have hnv : n ∉ vis := fun hc => hn (contains_iff_mem.mpr hc)
      have hsub : ∀ x ∈ vis ++ [n], x ∈ dnodes g := by
        intro x hx
        rcases List.mem_append.mp hx with h1 | h1
        · exact List.mem_dedup.mpr (isNode_iff_mem.mp (hvis x h1).1)
        · simp only [List.mem_singleton] at h1
          rw [h1]
          exact List.mem_dedup.mpr
            (isNode_iff_mem.mp (hq n (List.mem_cons_self n rest)).1)
      have hnd2 : (vis ++ [n]).Nodup := by simp [List.nodup_append, hnd, hnv]
      have hlen : vis.length + 1 ≤ (dnodes g).length := by
        have := nodup_subset_length_le hnd2 hsub
        simpa using this
      have hout : (outNbrs g n).length ≤ edgeCount g := outNbrs_length_le n
      have e1 : closureMeasure g (closureStep g (n :: rest, vis)) =
          rest.length + (outNbrs g n).length +
            (edgeCount g + 1) * ((dnodes g).length - (vis.length + 1)) := by
        simp only [closureStep]
        rw [if_neg hn]
        simp [closureMeasure, List.length_append]
      rw [e1]
      exact measure_arith hout hlen

theorem closureLoop_inv {g : DependencyGraph} {roots : List String} (fuel : Nat)
    {st : List String × List String} (h : closureInv g roots st) :
    closureInv g roots (closureLoop g fuel st) := by
  induction fuel generalizing st with
  | zero => exact h
  | succ fuel ih =>
    obtain ⟨q, vis⟩ := st
    cases q with
    | nil => exact h
    | cons n rest => exact ih (closureStep_inv h)

theorem closureLoop_empties {g : DependencyGraph} {roots : List String} (fuel : Nat)
    {st : List String × List String} (h : closureInv g roots st)
    (hfuel : closureMeasure g st ≤ fuel) : (closureLoop g fuel st).1 = [] := by
  induction fuel generalizing st with
  | zero =>
    have : st.1.length = 0 := by
      simp only [closureMeasure] at hfuel
      omega
    obtain ⟨q, vis⟩ := st
    simp only [closureLoop]
    exact List.length_eq_zero.mp this
  | succ fuel ih =>
    obtain ⟨q, vis⟩ := st
    cases q with
    | nil => rfl
    | cons n rest =>
      have hlt := closureStep_measure h (by simp)
      exact ih (closureStep_inv h) (by omega)

theorem closureInit_inv {g : DependencyGraph} {roots : List String} :
    closureInv g roots (initQueue g roots, []) := by
  refine ⟨?_, List.nodup_nil, by simp, by simp, ?_⟩
  · intro x hx
    rw [initQueue, List.mem_filter] at hx
    exact ⟨hx.2, Reach.root x hx.1 hx.2⟩
  · intro r hr hrn
    exact Or.inr (List.mem_filter.mpr ⟨hr, hrn⟩)

theorem closureInit_measure {g : DependencyGraph} {roots : List String} :
    closureMeasure g (initQueue g roots, []) ≤ closureFuel g roots := by
  simp only [closureMeasure, closureFuel, initQueue, List.length_nil, Nat.sub_zero]
  have := List.length_filter_le (fun r => isNode g r) roots
  omega

/-- `get_transitive_dependencies` computes exactly the set of names reachable
from the roots along outgoing edges. -/
theorem mem_gtd_iff {g : DependencyGraph} {roots : List String} {x : String} :
    x ∈ get_transitive_dependencies g roots ↔ Reach g roots x := by
  have hinv : closureInv g roots
      (closureLoop g (closureFuel g roots) (initQueue g roots, [])) :=
    closureLoop_inv (closureFuel g roots) closureInit_inv
  have hq : (closureLoop g (closureFuel g roots) (initQueue g roots, [])).1 = [] :=
    closureLoop_empties (closureFuel g roots) closureInit_inv closureInit_measure
  rw [get_transitive_dependencies]
  constructor
  · intro hx
    exact (hinv.2.2.1 x hx).2
  · intro hx
    induction hx with
    | root r hr hrn =>
      rcases hinv.2.2.2.2 r hr hrn with h1 | h1
      · exact h1
      · rw [hq] at h1
        exact absurd h1 (List.not_mem_nil r)
    | step a b ha hedge ih =>
      rcases hinv.2.2.2.1 a ih b (mem_outNbrs.mpr hedge) with h1 | h1
      · exact h1
      · rw [hq] at h1
        exact absurd h1 (List.not_mem_nil b)

/-- The visited list built by the closure BFS is duplicate-free. -/
theorem gtd_nodup {g : DependencyGraph} {roots : List String} :
    (get_transitive_dependencies g roots).Nodup :=
  (closureLoop_inv (closureFuel g roots) closureInit_inv).2.1

theorem reach_isNode {g : DependencyGraph} {roots : List String} {x : String}
    (h : Reach g roots x) : isNode g x = true := by
  induction h with
  | root r hr hrn => exact hrn
  | step a b ha hedge ih => exact hasEdge_tgt_isNode hedge

/-- Reachability from the closure of a root set is reachability from the
root set itself: the two Reach predicates coincide. -/
theorem reach_gtd_iff {g : DependencyGraph} {S : List String} {x : String} :
    Reach g (get_transitive_dependencies g S) x ↔ Reach g S x := by
  constructor
  · intro h
    induction h with
    | root r hr hrn => exact mem_gtd_iff.mp hr
    | step a b ha hedge ih => exact Reach.step a b ih hedge
  · intro h
    exact Reach.root x (mem_gtd_iff.mpr h) (reach_isNode h)

theorem lexLeChars_total : ∀ a b : List Char, (lexLeChars a b || lexLeChars b a) = true := by
  intro a
  induction a with
  | nil => intro b; simp [lexLeChars]
  | cons x xs ih =>
    intro b
    cases b with
    | nil => simp [lexLeChars]
    | cons y ys =>
      simp only [lexLeChars]
      rcases Nat.lt_trichotomy x.val.toNat y.val.toNat with h | h | h
      · simp [h]
      · simp only [h, Nat.lt_irrefl, if_neg, if_false]
        exact ih ys
      · simp [h, Nat.lt_asymm h]

theorem lexLeChars_trans : ∀ a b c : List Char, lexLeChars a b = true →
    lexLeChars b c = true → lexLeChars a c = true := by
  intro a
  induction a with
  | nil => intro b c _ _; simp [lexLeChars]
  | cons x xs ih =>
    intro b c hab hbc
    cases b with
    | nil => simp [lexLeChars] at hab
    | cons y ys =>
      cases c with
      | nil => simp [lexLeChars] at hbc
      | cons z zs =>
        simp only [lexLeChars] at hab hbc ⊢
        rcases Nat.lt_trichotomy x.val.toNat y.val.toNat with h1 | h1 | h1
        · rcases Nat.lt_trichotomy y.val.toNat z.val.toNat with h2 | h2 | h2
          · simp [Nat.lt_trans h1 h2]
          · simp [h2 ▸ h1]
          · simp [h2, Nat.lt_asymm h2] at hbc
        · rcases Nat.lt_trichotomy y.val.toNat z.val.toNat with h2 | h2 | h2
          · simp [h1 ▸ h2]
          · simp only [h1, h2, Nat.lt_irrefl, if_neg, if_false] at hab hbc ⊢
            exact ih ys zs hab hbc
          · simp [h2, Nat.lt_asymm h2] at hbc
        · simp [h1, Nat.lt_asymm h1] at hab

theorem nameLe_trans {a b c : String} (h1 : nameLe a b = true) (h2 : nameLe b c = true) :
    nameLe a c = true := lexLeChars_trans a.data b.data c.data h1 h2

theorem nameLe_total (a b : String) : (nameLe a b || nameLe b a) = true :=
  lexLeChars_total a.data b.data

theorem pathOk_cons {g : DependencyGraph} {target : String} {path : List String}
    {cur nb : String} (hpath : pathOk g target path) (hhead : path.head? = some cur)
    (hedge : hasEdge g nb cur) (hnb : nb ∉ path) : pathOk g target (nb :: path) := by
  obtain ⟨hne, hnd, hnodes, hlast, hchain⟩ := hpath
  refine ⟨List.cons_ne_nil nb path, List.nodup_cons.mpr ⟨hnb, hnd⟩, ?_, ?_, ?_⟩
  · intro x hx
    rcases List.mem_cons.mp hx with h1 | h1
    · exact h1 ▸ hasEdge_src_isNode hedge
    · exact hnodes x h1
  · cases path with
    | nil => exact absurd rfl hne
    | cons p ps => rw [List.getLast?_cons_cons]; exact hlast
  · rw [List.chain'_cons']
    refine ⟨?_, hchain⟩
    intro y hy
    rw [hhead] at hy
    simp only [Option.mem_def, Option.some_inj] at hy
    exact hy ▸ hedge

theorem chainPush_ok {g : DependencyGraph} {target : String} {path : List String}
    {cur nb : String} {st : ChainSt}
    (hpath : pathOk g target path) (hhead : path.head? = some cur)
    (hedge : hasEdge g nb cur) (hst : stOk g target st) :
    stOk g target (chainPush g path st nb) ∧
    chainMeasure g (chainPush g path st nb) ≤
      chainMeasure g st + (edgeCount g + 1) ^ ((dnodes g).length - path.length) := by
  by_cases hc : path.contains nb
  · rw [chainPush, if_pos hc]
    exact ⟨hst, Nat.le_add_right _ _⟩
  · have hnb : nb ∉ path := fun hm => hc (contains_iff_mem.mpr hm)
    have hnp : pathOk g target (nb :: path) := pathOk_cons hpath hhead hedge hnb
    rw [chainPush, if_neg hc]
    by_cases hd : isDirectName g nb = true
    · rw [if_pos hd]
      by_cases hv : st.visitedPaths.contains (nb :: path)
      · rw [if_pos hv]
        exact ⟨hst, Nat.le_add_right _ _⟩
      · rw [if_neg hv]
        refine ⟨⟨hst.1, ?_⟩, Nat.le_add_right _ _⟩
        intro c hcm
        rcases List.mem_append.mp hcm with h1 | h1
        · exact hst.2 c h1
        · simp only [List.mem_singleton] at h1
          exact h1 ▸ ⟨hnp, nb, path, rfl, hd⟩
    · rw [if_neg hd]
      constructor
      · refine ⟨?_, hst.2⟩
        intro e he
        rcases List.mem_append.mp he with h1 | h1
        · exact hst.1 e h1
        · simp only [List.mem_singleton] at h1
          subst h1
          exact ⟨rfl, hnp⟩
      · simp only [chainMeasure, List.map_append, List.sum_append, List.map_cons,
          List.map_nil, List.sum_cons, List.sum_nil]
        have hw : chainWeight g (nb, nb :: path) =
            (edgeCount g + 1) ^ ((dnodes g).length - path.length) := by
          rw [chainWeight, List.length_cons, Nat.succ_sub_succ]
        omega

theorem chainFold_ok {g : DependencyGraph} {target : String} {path : List String}
    {cur : String} :
    ∀ (l : List String) (st : ChainSt),
    (∀ nb ∈ l, hasEdge g nb cur) →
    pathOk g target path → path.head? = some cur →
    stOk g target st →
    stOk g target (l.foldl (chainPush g path) st) ∧
    chainMeasure g (l.foldl (chainPush g path) st) ≤
      chainMeasure g st +
        l.length * (edgeCount g + 1) ^ ((dnodes g).length - path.length) := by
  intro l
  induction l with
  | nil =>
    intro st _ _ _ hst
    exact ⟨hst, by simp⟩
  | cons nb ns ih =>
    intro st hl hpath hhead hst
    have h1 := chainPush_ok hpath hhead (hl nb (List.mem_cons_self nb ns)) hst
    have h2 := ih (chainPush g path st nb) (fun x hx => hl x (List.mem_cons_of_mem _ hx))
      hpath hhead h1.1
    refine ⟨h2.1, ?_⟩
    rw [List.foldl_cons, List.length_cons]
    have := h2.2
    have := h1.2
    generalize (edgeCount g + 1) ^ ((dnodes g).length - path.length) = w at *
    have hmul : (ns.length + 1) * w = ns.length * w + w := by
      rw [Nat.add_mul, Nat.one_mul]
    omega

theorem chainsLoop_ok {g : DependencyGraph} {target : String} (fuel : Nat) :
    ∀ {st : ChainSt}, stOk g target st → stOk g target (chainsLoop g fuel st) := by
  induction fuel with
  | zero => intro st hst; exact hst
  | succ fuel ih =>
    intro st hst
    obtain ⟨q, vp, ch⟩ := st
    cases q with
    | nil => exact hst
    | cons e rest =>
      obtain ⟨cur, path⟩ := e
      have hent := hst.1 (cur, path) (List.mem_cons_self _ _)
      have hrest : stOk g target ⟨rest, vp, ch⟩ :=
        ⟨fun e he => hst.1 e (List.mem_cons_of_mem _ he), hst.2⟩
      have hstep := chainFold_ok (incNbrs g cur) ⟨rest, vp, ch⟩
        (fun nb hnb => mem_incNbrs.mp hnb) hent.2 hent.1 hrest
      exact ih hstep.1

theorem pathOk_length_le {g : DependencyGraph} {target : String} {p : List String}
    (h : pathOk g target p) : p.length ≤ (dnodes g).length := by
  obtain ⟨-, hnd, hnodes, -, -⟩ := h
  exact nodup_subset_length_le hnd
    (fun x hx => List.mem_dedup.mpr (isNode_iff_mem.mp (hnodes x hx)))

theorem chainsLoop_empties {g : DependencyGraph} {target : String} (fuel : Nat) :
    ∀ {st : ChainSt}, stOk g target st → chainMeasure g st ≤ fuel →
    (chainsLoop g fuel st).queue = [] := by
  induction fuel with
  | zero =>
    intro st hst hfuel
    obtain ⟨q, vp, ch⟩ := st
    cases q with
    | nil => rfl
    | cons e rest =>
      exfalso
      have hsum : chainWeight g e ≤ chainMeasure g ⟨e :: rest, vp, ch⟩ := by
        simp only [chainMeasure, List.map_cons, List.sum_cons]
        omega
      have hpos : 0 < chainWeight g e := Nat.pos_pow_of_pos _ (by omega)
      omega
  | succ fuel ih =>
    intro st hst hfuel
    obtain ⟨q, vp, ch⟩ := st
    cases q with
    | nil => rfl
    | cons e rest =>
      obtain ⟨cur, path⟩ := e
      have hent := hst.1 (cur, path) (List.mem_cons_self _ _)
      have hrest : stOk g target ⟨rest, vp, ch⟩ :=
        ⟨fun e he => hst.1 e (List.mem_cons_of_mem _ he), hst.2⟩
      have hstep := chainFold_ok (incNbrs g cur) ⟨rest, vp, ch⟩
        (fun nb hnb => mem_incNbrs.mp hnb) hent.2 hent.1 hrest
      have hL : path.length ≤ (dnodes g).length := pathOk_length_le hent.2
      have hw : chainWeight g (cur, path) =
          (edgeCount g + 1) ^ ((dnodes g).length - path.length) * (edgeCount g + 1) := by
        rw [chainWeight]
        have : (dnodes g).length + 1 - path.length =
            ((dnodes g).length - path.length) + 1 := by omega
        rw [this, pow_succ]
      have hmi : (incNbrs g cur).length *
            (edgeCount g + 1) ^ ((dnodes g).length - path.length) ≤
          edgeCount g * (edgeCount g + 1) ^ ((dnodes g).length - path.length) :=
        Nat.mul_le_mul_right _ (incNbrs_length_le cur)
      have hpw : 0 < (edgeCount g + 1) ^ ((dnodes g).length - path.length) :=
        Nat.pos_pow_of_pos _ (by omega)
      have hmeas : chainMeasure g ⟨(cur, path) :: rest, vp, ch⟩ =
          chainWeight g (cur, path) + chainMeasure g ⟨rest, vp, ch⟩ := by
        simp [chainMeasure]
      apply ih hstep.1
      have hb := hstep.2
      rw [hw] at hmeas
      have hcomm : (edgeCount g + 1) ^ ((dnodes g).length - path.length) * (edgeCount g + 1) =
          edgeCount g * (edgeCount g + 1) ^ ((dnodes g).length - path.length) +
          (edgeCount g + 1) ^ ((dnodes g).length - path.length) := by
        rw [Nat.mul_succ, Nat.mul_comm]
      rw [hcomm] at hmeas
      generalize (edgeCount g + 1) ^ ((dnodes g).length - path.length) = w at *
      generalize edgeCount g * w = b at *
      omega

theorem sortByLen_sorted (l : List (List String)) :
    List.Pairwise (fun c₁ c₂ : List String => c₁.length ≤ c₂.length) (sortByLen l) := by
  rw [sortByLen]
  refine List.Pairwise.imp ?_ (List.sorted_mergeSort ?_ ?_ l)
  · intro a b h
    rw [decide_eq_true_eq] at h
    exact h
  · intro a b c h1 h2
    simp only [decide_eq_true_eq] at h1 h2 ⊢
    omega
  · intro a b
    simp only [Bool.or_eq_true, decide_eq_true_eq]
    omega

theorem mem_sortByLen {l : List (List String)} {c : List String} :
    c ∈ sortByLen l ↔ c ∈ l := List.mem_mergeSort

theorem chainsInit_ok {g : DependencyGraph} {target : String}
    (ht : isNode g target = true) : stOk g target (chainsInit target) := by
  constructor
  · intro e he
    simp only [chainsInit, List.mem_singleton] at he
    subst he
    refine ⟨rfl, List.cons_ne_nil _ _, List.nodup_singleton target, ?_, rfl, ?_⟩
    · intro x hx
      rw [List.mem_singleton] at hx
      exact hx ▸ ht
    · exact List.chain'_singleton target
  · intro c hc
    simp [chainsInit] at hc

theorem chainsInit_measure {g : DependencyGraph} {target : String} :
    chainMeasure g (chainsInit target) = chainsFuel g := by
  simp [chainMeasure, chainsInit, chainWeight, chainsFuel]

/-- Every chain produced by the non-direct branch of `find_dependency_chains`
is a well-formed chain: an edge path inside the node set, duplicate-free,
from a direct dependency down to the target. -/
theorem fdc_chainOk {g : DependencyGraph} {target : String}
    (ht : isNode g target = true) (hnd : isDirectName g target = false) :
    ∀ c ∈ find_dependency_chains g target, chainOk g target c := by
  intro c hc
  rw [find_dependency_chains, if_neg (by simp [hnd])] at hc
  have hok := chainsLoop_ok (chainsFuel g) (chainsInit_ok ht)
  exact hok.2 c (mem_sortByLen.mp (List.mem_of_mem_take hc))

/-- Every chain of `find_dependency_chains` is duplicate-free. -/
theorem fdc_nodup {g : DependencyGraph} {target : String}
    (ht : isNode g target = true) :
    ∀ c ∈ find_dependency_chains g target, c.Nodup := by
  by_cases hd : isDirectName g target = true
  · rw [find_dependency_chains, if_pos hd]
    intro c hc
    simp only [List.mem_singleton] at hc
    exact hc ▸ List.nodup_singleton target
  · intro c hc
    exact (fdc_chainOk ht (by simpa using hd) c hc).1.2.1

/-- `find_dependency_chains` returns at most 5 chains. -/
theorem fdc_length_le (g : DependencyGraph) (target : String) :
    (find_dependency_chains g target).length ≤ 5 := by
  rw [find_dependency_chains]
  split
  · simp
  · rw [List.length_take]
    exact Nat.min_le_left 5 _

/-- The chains of `find_dependency_chains` are non-decreasing in length. -/
theorem fdc_sorted (g : DependencyGraph) (target : String) :
    List.Pairwise (fun c₁ c₂ : List String => c₁.length ≤ c₂.length)
      (find_dependency_chains g target) := by
  rw [find_dependency_chains]
  split
  · simp
  · exact List.Pairwise.sublist (List.take_sublist 5 _) (sortByLen_sorted _)

/-- A reachability fact through an intermediate node. -/
theorem reach_through {g : DependencyGraph} {roots : List String} {r y : String}
    (h1 : Reach g roots r) (h2 : Reach g [r] y) : Reach g roots y := by
  induction h2 with
  | root s hs hn =>
    rw [List.mem_singleton] at hs
    exact hs ▸ h1
  | step a b ha he ih => exact Reach.step a b ih he

/-- An edge path witnesses reachability of its last element from its head. -/
theorem chain_reach {g : DependencyGraph} :
    ∀ (c : List String), (∀ x ∈ c, isNode g x = true) →
    List.Chain' (hasEdge g) c → ∀ hd tgt, c.head? = some hd → c.getLast? = some tgt →
    Reach g [hd] tgt := by
  intro c
  induction c with
  | nil =>
    intro _ _ hd tgt hh
    simp at hh
  | cons x cs ih =>
    intro hnodes hchain hd tgt hh hl
    simp only [List.head?_cons, Option.some_inj] at hh
    subst hh
    cases cs with
    | nil =>
      simp only [List.getLast?_singleton, Option.some_inj] at hl
      exact hl ▸ Reach.root x (List.mem_singleton_self x)
        (hnodes x (List.mem_singleton_self x))
    | cons y ys =>
      rw [List.getLast?_cons_cons] at hl
      rw [List.chain'_cons] at hchain
      have hyr : Reach g [y] tgt := ih
        (fun z hz => hnodes z (List.mem_cons_of_mem _ hz)) hchain.2 y tgt rfl hl
      have hxy : Reach g [x] y :=
        Reach.step x y
          (Reach.root x (List.mem_singleton_self x)
            (hnodes x (List.mem_cons_self x _)))
          hchain.1
      exact reach_through hxy hyr

/-- Unfolding of `explain_package` when the package is present. -/
theorem explain_some {g : DependencyGraph} {name : String} {pkg : Package}
    (h : lookupPkg g name = some pkg) :
    explain_package g name = some ⟨pkg, find_dependency_chains g name,
      (find_dependency_chains g name).any (fun chain =>
        match chain.head? with
        | some root => isDevName g root
        | none => false)⟩ := by
  simp [explain_package, h, lookupPkg_isNode h]

theorem mem_rgUniverse {rg : List (String × List String)} {k d : String}
    (h : d ∈ rgDeps rg k) : d ∈ rgUniverse rg := by
  rw [rgDeps] at h
  rcases hf : rg.find? (fun e => e.1 == k) with - | e
  · rw [hf] at h
    simp at h
  · rw [hf] at h
    rw [rgUniverse, List.mem_dedup, List.mem_flatMap]
    exact ⟨e, List.mem_of_find?_eq_some hf, h⟩

/-- What one `pushFresh` call guarantees: visited stays duplicate-free and
keeps the queue inside it, the processed dependents all end up visited, the
newly visited are exactly the newly queued, any predicate true of the visited
and of the dependents stays true of the visited, and visited and queue grow
by the same amount. -/
theorem pushFresh_spec (P : String → Prop) :
    ∀ (deps vis q : List String),
    vis.Nodup → q.Nodup → (∀ x ∈ q, x ∈ vis) → (∀ x ∈ vis, P x) → (∀ d ∈ deps, P d) →
    (pushFresh deps (vis, q)).1.Nodup ∧
    (pushFresh deps (vis, q)).2.Nodup ∧
    (∀ x ∈ (pushFresh deps (vis, q)).2, x ∈ (pushFresh deps (vis, q)).1) ∧
    (∀ x ∈ vis, x ∈ (pushFresh deps (vis, q)).1) ∧
    (∀ x ∈ q, x ∈ (pushFresh deps (vis, q)).2) ∧
    (∀ d ∈ deps, d ∈ (pushFresh deps (vis, q)).1) ∧
    (∀ x ∈ (pushFresh deps (vis, q)).1, x ∈ vis ∨ x ∈ (pushFresh deps (vis, q)).2) ∧
    (∀ x ∈ (pushFresh deps (vis, q)).2, x ∈ q ∨ x ∈ deps) ∧
    (∀ x ∈ (pushFresh deps (vis, q)).1, P x) ∧
    (pushFresh deps (vis, q)).1.length + q.length =
      vis.length + (pushFresh deps (vis, q)).2.length := by
  intro deps
  induction deps with
  | nil =>
    intro vis q h1 h2 h3 h4 _
    exact ⟨h1, h2, h3, fun x hx => hx, fun x hx => hx, by simp,
      fun x hx => Or.inl hx, fun x hx => Or.inl hx, h4, rfl⟩
  | cons d ds ih =>
    intro vis q h1 h2 h3 h4 h5
    by_cases hd : vis.contains d
    · have hdv : d ∈ vis := contains_iff_mem.mp hd
      have heq : pushFresh (d :: ds) (vis, q) = pushFresh ds (vis, q) := by
        simp [pushFresh, hdv]
      rw [heq]
      obtain ⟨g1, g2, g3, g4, g5, g6, g7, g8, g9, g10⟩ :=
        ih vis q h1 h2 h3 h4 (fun x hx => h5 x (List.mem_cons_of_mem _ hx))
      refine ⟨g1, g2, g3, g4, g5, ?_, g7, ?_, g9, g10⟩
      · intro x hx
        rcases List.mem_cons.mp hx with h | h
        · exact h ▸ g4 d hdv
        · exact g6 x h
      · intro x hx
        rcases g8 x hx with h | h
        · exact Or.inl h
        · exact Or.inr (List.mem_cons_of_mem _ h)
    · have hdv : d ∉ vis := fun hm => hd (contains_iff_mem.mpr hm)
      have hdq : d ∉ q := fun hm => hdv (h3 d hm)
      have heq : pushFresh (d :: ds) (vis, q) = pushFresh ds (vis ++ [d], q ++ [d]) := by
        simp [pushFresh, hdv]
      rw [heq]
      have h1b : (vis ++ [d]).Nodup := by simp [List.nodup_append, h1, hdv]
      have h2b : (q ++ [d]).Nodup := by simp [List.nodup_append, h2, hdq]
      have h3b : ∀ x ∈ q ++ [d], x ∈ vis ++ [d] := by
        intro x hx
        rcases List.mem_append.mp hx with h | h
        · exact List.mem_append.mpr (Or.inl (h3 x h))
        · exact List.mem_append.mpr (Or.inr h)
      have h4b : ∀ x ∈ vis ++ [d], P x := by
        intro x hx
        rcases List.mem_append.mp hx with h | h
        · exact h4 x h
        · rw [List.mem_singleton] at h
          exact h ▸ h5 d (List.mem_cons_self d ds)
      obtain ⟨g1, g2, g3, g4, g5, g6, g7, g8, g9, g10⟩ :=
        ih (vis ++ [d]) (q ++ [d]) h1b h2b h3b h4b
          (fun x hx => h5 x (List.mem_cons_of_mem _ hx))
      refine ⟨g1, g2, g3, ?_, ?_, ?_, ?_, ?_, g9, ?_⟩
      · intro x hx
        exact g4 x (List.mem_append.mpr (Or.inl hx))
      · intro x hx
        exact g5 x (List.mem_append.mpr (Or.inl hx))
      · intro x hx
        rcases List.mem_cons.mp hx with h | h
        · exact h ▸ g4 d (List.mem_append.mpr (Or.inr (List.mem_singleton_self d)))
        · exact g6 x h
      · intro x hx
        rcases g7 x hx with h | h
        · rcases List.mem_append.mp h with h' | h'
          · exact Or.inl h'
          · rw [List.mem_singleton] at h'
            exact Or.inr (h' ▸ g5 d (List.mem_append.mpr (Or.inr (List.mem_singleton_self d))))
        · exact Or.inr h
      · intro x hx
        rcases g8 x hx with h | h
        · rcases List.mem_append.mp h with h' | h'
          · exact Or.inl h'
          · rw [List.mem_singleton] at h'
            exact Or.inr (h' ▸ List.mem_cons_self d ds)
        · exact Or.inr (List.mem_cons_of_mem _ h)
      · rw [List.length_append, List.length_append] at g10
        simp only [List.length_singleton] at g10
        omega

theorem ctdStep_inv {rg : List (String × List String)} {key : String}
    {vis rest : List String} {c : String} {cnt : Nat}
    (h : ctdInv rg key (vis, c :: rest, cnt)) :
    ctdInv rg key ((pushFresh (rgDeps rg c) (vis, rest)).1,
      (pushFresh (rgDeps rg c) (vis, rest)).2, cnt + 1) := by
  obtain ⟨h1, h2, h3, h4, h5, h6, h7, h8⟩ := h
  have hcv : c ∈ vis := h3 c (List.mem_cons_self c rest)
  have hrest : rest.Nodup := (List.nodup_cons.mp h2).2
  have hrestv : ∀ x ∈ rest, x ∈ vis := fun x hx => h3 x (List.mem_cons_of_mem _ hx)
  have hP : ∀ x ∈ vis, TransDep rg key x ∧ x ∈ rgUniverse rg :=
    fun x hx => ⟨h5 x hx, h8 x hx⟩
  have hdeps : ∀ d ∈ rgDeps rg c, TransDep rg key d ∧ d ∈ rgUniverse rg :=
    fun d hd => ⟨TransDep.step c d (h5 c hcv) hd, mem_rgUniverse hd⟩
  obtain ⟨g1, g2, g3, g4, g5, g6, g7, g8, g9, g10⟩ :=
    pushFresh_spec (fun x => TransDep rg key x ∧ x ∈ rgUniverse rg)
      (rgDeps rg c) vis rest h1 hrest hrestv hP hdeps
  refine ⟨g1, g2, g3, ?_, fun x hx => (g9 x hx).1, ?_, ?_, fun x hx => (g9 x hx).2⟩
  · simp only [List.length_cons] at h4
    show cnt + 1 + (pushFresh (rgDeps rg c) (vis, rest)).2.length =
      (pushFresh (rgDeps rg c) (vis, rest)).1.length
    omega
  · intro v hv
    rcases g7 v hv with h | h
    · rcases h6 v h with h' | h'
      · rcases List.mem_cons.mp h' with h'' | h''
        · subst h''
          exact Or.inr (fun d hd => g6 d hd)
        · exact Or.inl (g5 v h'')
      · exact Or.inr (fun d hd => g4 d (h' d hd))
    · exact Or.inl h
  · intro d hd
    exact g4 d (h7 d hd)

theorem ctdStep_measure {rg : List (String × List String)} {key : String}
    {vis rest : List String} {c : String} {cnt : Nat}
    (h : ctdInv rg key (vis, c :: rest, cnt)) :
    ctdMeasure rg ((pushFresh (rgDeps rg c) (vis, rest)).1,
      (pushFresh (rgDeps rg c) (vis, rest)).2, cnt + 1) <
      ctdMeasure rg (vis, c :: rest, cnt) := by
  have hstep := ctdStep_inv h
  obtain ⟨h1, h2, h3, h4, h5, h6, h7, h8⟩ := h
  have hrest : rest.Nodup := (List.nodup_cons.mp h2).2
  have hrestv : ∀ x ∈ rest, x ∈ vis := fun x hx => h3 x (List.mem_cons_of_mem _ hx)
  have hP : ∀ x ∈ vis, TransDep rg key x ∧ x ∈ rgUniverse rg :=
    fun x hx => ⟨h5 x hx, h8 x hx⟩
  have hdeps : ∀ d ∈ rgDeps rg c, TransDep rg key d ∧ d ∈ rgUniverse rg :=
    fun d hd => ⟨TransDep.step c d (h5 c (h3 c (List.mem_cons_self c rest))) hd,
      mem_rgUniverse hd⟩
  obtain ⟨g1, g2, g3, g4, g5, g6, g7, g8, g9, g10⟩ :=
    pushFresh_spec (fun x => TransDep rg key x ∧ x ∈ rgUniverse rg)
      (rgDeps rg c) vis rest h1 hrest hrestv hP hdeps
  have hsub : (pushFresh (rgDeps rg c) (vis, rest)).1.length ≤ (rgUniverse rg).length :=
    nodup_subset_length_le g1 (fun x hx => (g9 x hx).2)
  have hvsub : vis.length ≤ (pushFresh (rgDeps rg c) (vis, rest)).1.length :=
    nodup_subset_length_le h1 g4
  simp only [ctdMeasure, List.length_cons]
  omega

theorem ctdLoop_inv {rg : List (String × List String)} {key : String} (fuel : Nat) :
    ∀ {st : List String × List String × Nat}, ctdInv rg key st →
    ctdInv rg key (ctdLoop rg fuel st) := by
  induction fuel with
  | zero => intro st h; exact h
  | succ fuel ih =>
    intro st h
    obtain ⟨vis, q, cnt⟩ := st
    cases q with
    | nil => exact h
    | cons c rest => exact ih (ctdStep_inv h)

theorem ctdLoop_empties {rg : List (String × List String)} {key : String} (fuel : Nat) :
    ∀ {st : List String × List String × Nat}, ctdInv rg key st →
    ctdMeasure rg st ≤ fuel → (ctdLoop rg fuel st).2.1 = [] := by
  induction fuel with
  | zero =>
    intro st h hfuel
    obtain ⟨vis, q, cnt⟩ := st
    cases q with
    | nil => rfl
    | cons c rest =>
      exfalso
      simp only [ctdMeasure, List.length_cons] at hfuel
      omega
  | succ fuel ih =>
    intro st h hfuel
    obtain ⟨vis, q, cnt⟩ := st
    cases q with
    | nil => rfl
    | cons c rest =>
      have hlt := ctdStep_measure h
      exact ih (ctdStep_inv h) (by omega)

/-- `calculate_transitive_dependents` counts every transitively reachable
dependent exactly once: the count equals the length of a duplicate-free list
holding exactly the transitive dependents. -/
theorem ctd_counts (pbn : List (String × List CargoPackageInfo)) (key : String) :
    ∃ L : List String, L.Nodup ∧
      (∀ x, x ∈ L ↔ TransDep (buildReverseGraph pbn) key x) ∧
      calculate_transitive_dependents key pbn = L.length := by
  set rg := buildReverseGraph pbn with hrg
  have hdeps : ∀ d ∈ rgDeps rg key, TransDep rg key d ∧ d ∈ rgUniverse rg :=
    fun d hd => ⟨TransDep.seed d hd, mem_rgUniverse hd⟩
  obtain ⟨g1, g2, g3, g4, g5, g6, g7, g8, g9, g10⟩ :=
    pushFresh_spec (fun x => TransDep rg key x ∧ x ∈ rgUniverse rg)
      (rgDeps rg key) [] [] List.nodup_nil List.nodup_nil (by simp) (by simp) hdeps
  have hinv : ctdInv rg key
      ((pushFresh (rgDeps rg key) ([], [])).1, (pushFresh (rgDeps rg key) ([], [])).2, 0) := by
    refine ⟨g1, g2, g3, ?_, fun x hx => (g9 x hx).1, ?_, g6, fun x hx => (g9 x hx).2⟩
    · show 0 + (pushFresh (rgDeps rg key) ([], [])).2.length =
        (pushFresh (rgDeps rg key) ([], [])).1.length
      simp only [List.length_nil] at g10
      omega
    · intro v hv
      rcases g7 v hv with h | h
      · simp at h
      · exact Or.inl h
  have hμ : ctdMeasure rg
      ((pushFresh (rgDeps rg key) ([], [])).1, (pushFresh (rgDeps rg key) ([], [])).2, 0) ≤
      ctdFuel rg := by
    have hu : (pushFresh (rgDeps rg key) ([], [])).1.length ≤ (rgUniverse rg).length :=
      nodup_subset_length_le g1 (fun x hx => (g9 x hx).2)
    have hq : (pushFresh (rgDeps rg key) ([], [])).2.length ≤
        (pushFresh (rgDeps rg key) ([], [])).1.length := nodup_subset_length_le g2 g3
    simp only [ctdMeasure, ctdFuel]
    omega
  have hfin := ctdLoop_inv (ctdFuel rg) hinv
  have hq0 := ctdLoop_empties (ctdFuel rg) hinv hμ
  obtain ⟨f1, f2, f3, f4, f5, f6, f7, f8⟩ := hfin
  refine ⟨_, f1, ?_, ?_⟩
  · intro x
    constructor
    · exact f5 x
    · intro hx
      induction hx with
      | seed d hd => exact f7 d hd
      | step c d hc hd ihc =>
        rcases f6 c ihc with h | h
        · rw [hq0] at h
          simp at h
        · exact h d hd
  · show (ctdLoop rg (ctdFuel rg)
        ((pushFresh (rgDeps rg key) ([], [])).1, (pushFresh (rgDeps rg key) ([], [])).2,
          0)).2.2 = _
    rw [hq0] at f4
    simpa using f4

/-- C1, counterexample: on a package map holding the dev packages b and a in
that iteration order (with dev inclusion on and nothing used), the dev_only
bucket of analyze_usage comes out as [b, a] — not sorted ascending by name.
The Rust code sorts the other five buckets but never sorts dev_only, and
HashMap iteration order is arbitrary, so this order is realizable. -/
theorem C1_dev_only_unsorted :
    (analyze_usage gC1 [] true).dev_only.map Package.name = ["b", "a"] ∧
    ¬ List.Pairwise (fun x y : Package => nameLe x.name y.name = true)
      (analyze_usage gC1 [] true).dev_only := by
  constructor
  · decide
  · decide

/-- C1 (amended): for every package map, used-root set and include_dev flag,
the used, unused, expected_unused, unused_direct and expected_unused_direct
buckets of analyze_usage are sorted ascending by package name; the dev_only
bucket is emitted in map-iteration order and is not sorted. -/
theorem C1_buckets_sorted_except_dev_only (g : DependencyGraph)
    (used_packages : List String) (include_dev : Bool) :
    List.Pairwise (fun x y : PackageUsage => nameLe x.package.name y.package.name = true)
      (analyze_usage g used_packages include_dev).used ∧
    List.Pairwise (fun x y : Package => nameLe x.name y.name = true)
      (analyze_usage g used_packages include_dev).unused ∧
    List.Pairwise (fun x y : Package => nameLe x.name y.name = true)
      (analyze_usage g used_packages include_dev).expected_unused ∧
    List.Pairwise (fun x y : Package => nameLe x.name y.name = true)
      (analyze_usage g used_packages include_dev).unused_direct ∧
    List.Pairwise (fun x y : Package => nameLe x.name y.name = true)
      (analyze_usage g used_packages include_dev).expected_unused_direct := by
  refine ⟨?_, ?_, ?_, ?_, ?_⟩ <;>
  · simp only [analyze_usage]
    refine List.sorted_mergeSort ?_ ?_ _
    · intro a b c h1 h2
      exact nameLe_trans h1 h2
    · intro a b
      exact nameLe_total _ _

/-- C2, counterexample: starting the BFS of get_transitive_dependencies from
the root r of the diamond r → a, r → b, a → c, b → c, after three loop
iterations the queue is [c, c]: the node c has been enqueued twice, because
the visited-set membership check of the Rust loop follows the dequeue and no
check precedes the enqueues. -/
theorem C2_node_enqueued_twice :
    closureLoop gC2 3 (initQueue gC2 ["r"], []) = (["c", "c"], ["r", "a", "b"]) ∧
    (closureLoop gC2 3 (initQueue gC2 ["r"], [])).1.count "c" = 2 := by
  constructor
  · decide
  · decide

/-- C2 (amended): in the traversal of get_transitive_dependencies a node may
be enqueued more than once, because the visited-set membership check follows
the dequeue rather than preceding the enqueue; but each node is inserted into
the visited set — and hence appears in the returned set — at most once. -/
theorem C2_visited_inserted_once (g : DependencyGraph) (roots : List String) :
    (get_transitive_dependencies g roots).Nodup := gtd_nodup

/-- C3: explain_package returns none exactly when the target name is absent
from the package map; every present name yields some explanation. -/
theorem C3_explain_none_iff_absent (g : DependencyGraph) (name : String) :
    explain_package g name = none ↔ lookupPkg g name = none := by
  constructor
  · intro h
    rcases hl : lookupPkg g name with - | pkg
    · rfl
    · rw [explain_some hl] at h
      cases h
  · intro h
    rw [explain_package, h]

/-- C4: for every package whose is_direct flag is true, explain_package
returns exactly the single-element chain [name], whatever the graph shape. -/
theorem C4_direct_single_chain (g : DependencyGraph) (name : String) (pkg : Package)
    (hl : lookupPkg g name = some pkg) (hd : pkg.is_direct = true) :
    ∃ e, explain_package g name = some e ∧ e.dependency_chains = [[name]] := by
  have hdn : isDirectName g name = true := by
    rw [isDirectName, hl]
    exact hd
  have hch : find_dependency_chains g name = [[name]] := by
    rw [find_dependency_chains, if_pos hdn]
  exact ⟨_, explain_some hl, by simpa using hch⟩

/-- Witness for C4 at the one-package graph gC4 with the direct package e. -/
theorem C4_direct_single_chain_witness :
    ∃ e, explain_package gC4 "e" = some e ∧ e.dependency_chains = [["e"]] :=
  C4_direct_single_chain gC4 "e" ⟨"e", "1.0.0", true, false, [], none⟩
    (by decide) (by decide)

/-- C5: for every graph and target, the dependency chains carried by the
result of explain_package number at most 5 and are non-decreasing in length
(an absent target carries no chains at all). -/
theorem C5_chain_bound_and_sorted (g : DependencyGraph) (name : String) :
    (explainChains (explain_package g name)).length ≤ 5 ∧
    List.Pairwise (fun c₁ c₂ : List String => c₁.length ≤ c₂.length)
      (explainChains (explain_package g name)) := by
  rcases hl : lookupPkg g name with - | pkg
  · rw [explain_package, hl]
    exact ⟨by simp [explainChains], by simp [explainChains]⟩
  · rw [explain_some hl]
    exact ⟨fdc_length_le g name, fdc_sorted g name⟩

/-- C6: on any graph containing a two-cycle a ↔ b, explain_package on a node
of the cycle terminates — the reverse BFS empties its queue within the
allotted fuel — and no returned chain repeats a package name. -/
theorem C6_cycle_safety (g : DependencyGraph) (a b target : String)
    (hab : hasEdge g a b) (hba : hasEdge g b a) (htgt : target = a ∨ target = b) :
    (chainsLoop g (chainsFuel g) (chainsInit target)).queue = [] ∧
    ∃ e, explain_package g target = some e ∧ ∀ c ∈ e.dependency_chains, c.Nodup := by
  have htn : isNode g target = true := by
    rcases htgt with h | h
    · exact h ▸ hasEdge_src_isNode hab
    · exact h ▸ hasEdge_src_isNode hba
  obtain ⟨pkg, hl⟩ := isNode_lookupPkg htn
  refine ⟨?_, _, explain_some hl, ?_⟩
  · exact chainsLoop_empties (chainsFuel g) (chainsInit_ok htn)
      (le_of_eq chainsInit_measure)
  · intro c hc
    exact fdc_nodup htn c hc

/-- Witness for C6 at the two-cycle graph gC6 with target b. -/
theorem C6_cycle_safety_witness :
    (chainsLoop gC6 (chainsFuel gC6) (chainsInit "b")).queue = [] ∧
    ∃ e, explain_package gC6 "b" = some e ∧ ∀ c ∈ e.dependency_chains, c.Nodup :=
  C6_cycle_safety gC6 "a" "b" "b"
    ⟨⟨"a", "1.0.0", false, false, ["b"], none⟩, by decide, by decide, by decide⟩
    ⟨⟨"b", "1.0.0", false, false, ["a"], none⟩, by decide, by decide, by decide⟩
    (Or.inr rfl)

/-- C7: calculate_severity returns High for three or more versions; with
fewer, Low when no version parses as semver, Low when all parsed majors
agree, Medium when two parsed majors differ; and the three spec examples
evaluate as stated. -/
theorem C7_severity_rules :
    (∀ vs : List DuplicateVersion, 3 ≤ vs.length →
      calculate_severity vs = DuplicateSeverity.High) ∧
    (∀ vs : List DuplicateVersion, vs.length < 3 →
      (∀ v ∈ vs, semverMajor v.version = none) →
      calculate_severity vs = DuplicateSeverity.Low) ∧
    (∀ vs : List DuplicateVersion, vs.length < 3 →
      (∃ v ∈ vs, (semverMajor v.version).isSome = true) →
      (∀ m₁ ∈ vs.filterMap (fun v => semverMajor v.version),
        ∀ m₂ ∈ vs.filterMap (fun v => semverMajor v.version), m₁ = m₂) →
      calculate_severity vs = DuplicateSeverity.Low) ∧
    (∀ vs : List DuplicateVersion, vs.length < 3 →
      (∃ m₁ ∈ vs.filterMap (fun v => semverMajor v.version),
        ∃ m₂ ∈ vs.filterMap (fun v => semverMajor v.version), m₁ ≠ m₂) →
      calculate_severity vs = DuplicateSeverity.Medium) ∧
    calculate_severity [⟨"1.0.0", [], 0⟩, ⟨"1.1.0", [], 0⟩, ⟨"1.2.0", [], 0⟩] =
      DuplicateSeverity.High ∧
    calculate_severity [⟨"1.0.0", [], 0⟩, ⟨"2.0.0", [], 0⟩] =
      DuplicateSeverity.Medium ∧
    calculate_severity [⟨"1.0.0", [], 0⟩, ⟨"1.2.0", [], 0⟩] =
      DuplicateSeverity.Low := by
  refine ⟨?_, ?_, ?_, ?_, by decide, by decide, by decide⟩
  · intro vs h
    rw [calculate_severity, if_pos h]
  · intro vs h hnone
    rw [calculate_severity, if_neg (by omega)]
    have hnil : vs.filterMap (fun v => semverMajor v.version) = [] :=
      List.filterMap_eq_nil_iff.mpr hnone
    rw [hnil]
  · intro vs h hsome hall
    rw [calculate_severity, if_neg (by omega)]
    rcases hm : vs.filterMap (fun v => semverMajor v.version) with - | ⟨first, rest⟩
    · obtain ⟨v, hv, hvs⟩ := hsome
      have := List.filterMap_eq_nil_iff.mp hm v hv
      rw [this] at hvs
      cases hvs
    · rw [hm]
      have hrest : rest.all (fun m => m == first) = true := by
        rw [List.all_eq_true]
        intro m hmr
        have h1 : m ∈ vs.filterMap (fun v => semverMajor v.version) := by
          rw [hm]
          exact List.mem_cons_of_mem _ hmr
        have h2 : first ∈ vs.filterMap (fun v => semverMajor v.version) := by
          rw [hm]
          exact List.mem_cons_self _ _
        simpa using hall m h1 first h2
      show (if (rest.all fun m => m == first) = true then DuplicateSeverity.Low
        else DuplicateSeverity.Medium) = DuplicateSeverity.Low
      rw [if_pos hrest]
  · intro vs h hne
    rw [calculate_severity, if_neg (by omega)]
    obtain ⟨m₁, hm₁, m₂, hm₂, hdiff⟩ := hne
    rcases hm : vs.filterMap (fun v => semverMajor v.version) with - | ⟨first, rest⟩
    · rw [hm] at hm₁
      cases hm₁
    · rw [hm]
      have hfalse : rest.all (fun m => m == first) = false := by
        by_contra hc
        have hc2 : rest.all (fun m => m == first) = true := by
          cases hr : rest.all (fun m => m == first)
          · exact absurd hr hc
          · rfl
        have heach : ∀ m ∈ vs.filterMap (fun v => semverMajor v.version), m = first := by
          intro m hmm
          rw [hm] at hmm
          rcases List.mem_cons.mp hmm with h' | h'
          · exact h'
          · simpa using List.all_eq_true.mp hc2 m h'
        exact hdiff ((heach m₁ hm₁).trans (heach m₂ hm₂).symm)
      show (if (rest.all fun m => m == first) = true then DuplicateSeverity.Low
        else DuplicateSeverity.Medium) = DuplicateSeverity.Medium
      rw [hfalse]
      simp

/-- C8: calculate_transitive_dependents counts every transitively reachable
dependent exactly once — the count is the size of a duplicate-free list that
contains exactly the transitive dependents of the key — and on the example
graph root → A → B → C with root → D → B it yields 4 for C@1.0.0, 3 for
B@1.0.0 and 1 for A@1.0.0. -/
theorem C8_transitive_dependent_count :
    (∀ (pbn : List (String × List CargoPackageInfo)) (key : String),
      ∃ L : List String, L.Nodup ∧
        (∀ x, x ∈ L ↔ TransDep (buildReverseGraph pbn) key x) ∧
        calculate_transitive_dependents key pbn = L.length) ∧
    calculate_transitive_dependents "C@1.0.0" examplePbn = 4 ∧
    calculate_transitive_dependents "B@1.0.0" examplePbn = 3 ∧
    calculate_transitive_dependents "A@1.0.0" examplePbn = 1 :=
  ⟨ctd_counts, by decide, by decide, by decide⟩

/-- C9: the transitive closure is idempotent — applying
get_transitive_dependencies to its own result reaches exactly the same node
set. -/
theorem C9_closure_idempotent (g : DependencyGraph) (S : List String) (x : String) :
    x ∈ get_transitive_dependencies g (get_transitive_dependencies g S) ↔
      x ∈ get_transitive_dependencies g S := by
  rw [mem_gtd_iff, mem_gtd_iff]
  exact reach_gtd_iff

/-- C10: a present, non-direct target that no direct dependency reaches still
yields some explanation — with an empty chain list and is_dev_path false —
never none. -/
theorem C10_no_chains_still_some (g : DependencyGraph) (name : String)
    (pkg : Package) (hl : lookupPkg g name = some pkg) (hnd : pkg.is_direct = false)
    (hun : ∀ d ∈ gnodes g, isDirectName g d = true →
      name ∉ get_transitive_dependencies g [d]) :
    ∃ e, explain_package g name = some e ∧ e.dependency_chains = [] ∧
      e.is_dev_path = false := by
  have htn : isNode g name = true := lookupPkg_isNode hl
  have hdn : isDirectName g name = false := by
    rw [isDirectName, hl]
    exact hnd
  have hchains : find_dependency_chains g name = [] := by
    by_contra hne
    obtain ⟨c, hc⟩ := List.exists_mem_of_ne_nil _ hne
    obtain ⟨⟨hcne, hcnd, hcnodes, hclast, hchain⟩, hd0, t, hct, hdir⟩ :=
      fdc_chainOk htn hdn c hc
    have hh : c.head? = some hd0 := by
      rw [hct]
      rfl
    have hr : Reach g [hd0] name := chain_reach c hcnodes hchain hd0 name hh hclast
    have hhn : hd0 ∈ gnodes g := by
      rw [← isNode_iff_mem]
      exact hcnodes hd0 (by rw [hct]; exact List.mem_cons_self _ _)
    exact hun hd0 hhn hdir (mem_gtd_iff.mpr hr)
  refine ⟨_, explain_some hl, by simpa using hchains, ?_⟩
  show (find_dependency_chains g name).any _ = false
  rw [hchains]
  rfl

/-- Witness for C10 at the one-package graph gC10 whose only package a is not
direct and is reachable from no direct dependency. -/
theorem C10_no_chains_still_some_witness :
    ∃ e, explain_package gC10 "a" = some e ∧ e.dependency_chains = [] ∧
      e.is_dev_path = false :=
  C10_no_chains_still_some gC10 "a" ⟨"a", "1.0.0", false, false, [], none⟩
    (by decide) (by decide) (by decide)

end Depx
